import Mathlib

/-!
Verification of the RetryStorm microservice retry/timeout topology analyzer
(`retrystorm.py`): data model, duration normalization and the three detectors
(retry amplification, timeout inversion, circuit-breaker gaps), with the
`analyze` driver that concatenates their findings.

Embedding notes:
* A Python `dict[str, ServiceConfig]` (insertion ordered, unique keys) is
  modelled as an association list `Topology := List (String × ServiceConfig)`;
  `dict.get` is first-match lookup and iteration order is list order.
* Python `float` values (timeouts, parsed durations) are modelled as `ℚ`;
  `int` values (`max_retries`, threshold, retry products) as `ℤ`.
* Message strings are built exactly as the source's f-strings, except that the
  decimal rendering of numbers uses Lean's `toString` (so a float that Python
  would print as `3000.0` prints here as `3000`); no claim depends on the
  rendering of non-integral numbers.
-/

/-- `ServiceConfig` dataclass of `retrystorm.py`. -/
structure ServiceConfig where
  name : String
  timeout_ms : ℚ
  max_retries : ℤ
  has_circuit_breaker : Bool
  calls : List String
deriving Repr, DecidableEq

/-- `Finding` dataclass of `retrystorm.py`. -/
structure Finding where
  rule : String
  severity : String
  message : String
  path : List String
deriving Repr, DecidableEq

/-- The in-memory topology: `services`, a mapping from name to config. -/
abbrev Topology := List (String × ServiceConfig)

/-- `services.get(name)`: first-match lookup by key. -/
def Topology.get (s : Topology) (name : String) : Option ServiceConfig :=
  (List.find? (fun p => p.1 == name) s).map Prod.snd

/-- Python `str.strip()` on the character list: drop leading and trailing
whitespace (structural model of `String.trim`, kept kernel-reducible). -/
def stripChars (cs : List Char) : List Char :=
  ((cs.dropWhile Char.isWhitespace).reverse.dropWhile Char.isWhitespace).reverse

/-- Python `str.strip()` at the `String` level. -/
def strStrip (s : String) : String := ⟨stripChars s.data⟩

/-- Python `str.endswith(suffix)` (structural model of `String.endsWith`). -/
def strEndsWith (s suffix : String) : Bool := suffix.data.isSuffixOf s.data

/-- Python's `s[:-n]`: drop the last `n` characters. -/
def strDropRight (s : String) (n : ℕ) : String :=
  ⟨s.data.take (s.data.length - n)⟩

/-- Split a character list at every occurrence of `sep` (model of
`str.split(sep)` for a one-character separator). -/
def splitOnChar (sep : Char) : List Char → List (List Char)
  | [] => [[]]
  | c :: cs =>
    match splitOnChar sep cs with
    | [] => if c = sep then [[], []] else [[c]]
    | h :: t => if c = sep then [] :: h :: t else (c :: h) :: t

/-- Numeric value of a digit string. -/
def digitsVal (cs : List Char) : ℕ :=
  cs.foldl (fun n c => 10 * n + (c.toNat - 48)) 0

/-- Modelled Python `float(...)` on the strings this program feeds it:
optional surrounding whitespace, an optional sign, then decimal digits with an
optional fractional part (`"5"`, `"5."`, `".5"`, `"3.25"`).  Exotic float
syntax (exponents, `inf`, `nan`, underscores) is not representable in `ℚ` and
is rejected; `none` models Python's `ValueError`. -/
def pyFloat (s0 : String) : Option ℚ :=
  let t := stripChars s0.data
  let (sign, body) : ℚ × List Char :=
    match t with
    | '-' :: rest => (-1, rest)
    | '+' :: rest => (1, rest)
    | _ => (1, t)
  match splitOnChar '.' body with
  | [ip] =>
      if ip.length > 0 ∧ ip.all Char.isDigit then
        some (sign * digitsVal ip)
      else none
  | [ip, fp] =>
      if (ip.length > 0 ∨ fp.length > 0)
          ∧ ip.all Char.isDigit ∧ fp.all Char.isDigit then
        some (sign * (digitsVal ip + (digitsVal fp : ℚ) / (10 ^ fp.length)))
      else none
  | _ => none

/-- Input to `parse_duration`: either already numeric or a string. -/
inductive DurationInput where
  | num : ℚ → DurationInput
  | str : String → DurationInput
deriving Repr, DecidableEq

/-- `parse_duration` of `retrystorm.py`: numeric input is returned unchanged;
a string is trimmed and matched against suffixes `"ms"`, `"s"`, `"m"` in that
order; a suffix-less string parses as bare milliseconds.  `none` models the
`ValueError` a bad float raises. -/
def parse_duration : DurationInput → Option ℚ
  | .num q => some q
  | .str s0 =>
    let s := strStrip s0
    if strEndsWith s "ms" then pyFloat (strDropRight s 2)
    else if strEndsWith s "s" then (pyFloat (strDropRight s 1)).map (· * 1000)
    else if strEndsWith s "m" then (pyFloat (strDropRight s 1)).map (· * 60000)
    else pyFloat s

/-- The finding `walk` appends when the amplification threshold is breached. -/
def ampFinding (current : ℤ) (path : List String) : Finding :=
  { rule := "retry-amplification", severity := "error"
    message := "Retry amplification " ++ toString current ++ "x along "
      ++ String.intercalate " -> " path
    path := path }

theorem filter_length_lt {α : Type} (l : List α) (p q : α → Bool) (a : α)
    (ha : a ∈ l) (hpq : ∀ x, q x = true → p x = true)
    (hpa : p a = true) (hqa : q a = false) :
    (l.filter q).length < (l.filter p).length := by
  induction l with
  | nil => cases ha
  | cons b l ih =>
    rcases List.mem_cons.1 ha with rfl | hb
    · simp only [List.filter_cons, hpa, hqa, if_true]
      have hsub : (l.filter q).length ≤ (l.filter p).length := by
        have : l.filter q = (l.filter p).filter q := by
          rw [List.filter_filter]
          apply List.filter_congr
          intro x _
          by_cases hq : q x = true
          · simp [hq, hpq x hq]
          · simp [Bool.eq_false_iff.2 hq]
        rw [this]
        exact List.length_filter_le _ _
      simpa using Nat.lt_succ_of_le hsub
    · have hlt := ih hb
      by_cases hq : q b = true
      · simp only [List.filter_cons, hq, hpq b hq]
        simpa using Nat.succ_lt_succ hlt
      · have hq' : q b = false := Bool.eq_false_iff.2 hq
        simp only [List.filter_cons, hq']
        by_cases hp : p b = true
        · simp only [hp, if_true]
          exact Nat.lt_succ_of_lt hlt
        · simp only [Bool.eq_false_iff.2 hp, if_false]
          exact hlt

theorem mem_keys_of_get_some {s : Topology} {name : String} {c : ServiceConfig}
    (h : s.get name = some c) : name ∈ s.map Prod.fst := by
  unfold Topology.get at h
  rcases Option.map_eq_some'.1 h with ⟨p, hp, _⟩
  have hmem := List.mem_of_find?_eq_some hp
  have heq := List.find?_some hp
  simp only [beq_iff_eq] at heq
  subst heq
  exact List.mem_map_of_mem Prod.fst hmem

/-- The recursive `walk` of `detect_retry_amplification`: depth-first traversal
maintaining the current simple path and the running product of `max_retries`.
The source's `walk(name, ...)` begins by looking `name` up and returning when
it is absent; here that lookup is hoisted to the call site, so `walk` receives
the already-resolved `ServiceConfig` and a dangling callee contributes `[]`
exactly as in the source. -/
def walk (s : Topology) (threshold : ℤ) (svc : ServiceConfig)
    (path : List String) (product : ℤ) : List Finding :=
  let current := product * svc.max_retries
  (if path.length > 1 ∧ current > threshold
    then [ampFinding current path] else [])
  ++ svc.calls.flatMap (fun callee =>
      if hmem : callee ∈ path then []
      else
        match hget : s.get callee with
        | none => []
        | some c => walk s threshold c (path ++ [callee]) current)
termination_by ((s.map Prod.fst).filter (fun k => decide (k ∉ path))).length
decreasing_by
  apply filter_length_lt _ _ _ callee (mem_keys_of_get_some hget)
  · intro x hx
    simp only [decide_eq_true_eq, List.mem_append, List.mem_singleton] at hx ⊢
    exact fun hc => hx (Or.inl hc)
  · simpa using hmem
  · simp

/-- `detect_retry_amplification` of `retrystorm.py`: run `walk` from every
service as a chain start, seeded with path `[name]` and product 1. -/
def detect_retry_amplification (s : Topology) (threshold : ℤ) : List Finding :=
  s.flatMap fun p =>
    match s.get p.1 with
    | none => []
    | some svc => walk s threshold svc [p.1] 1

/-- `detect_timeout_inversion` of `retrystorm.py`: pairwise scan of every
caller→callee edge, flagging strict `caller.timeout_ms < callee.timeout_ms`. -/
def detect_timeout_inversion (s : Topology) : List Finding :=
  s.flatMap fun p =>
    p.2.calls.flatMap fun callee_name =>
      match s.get callee_name with
      | none => []
      | some callee =>
        if p.2.timeout_ms < callee.timeout_ms then
          [{ rule := "timeout-inversion", severity := "warning"
             message := p.1 ++ " timeout (" ++ toString p.2.timeout_ms
               ++ "ms) < " ++ callee_name ++ " ("
               ++ toString callee.timeout_ms ++ "ms)"
             path := [p.1, callee_name] }]
        else []

/-- `detect_circuit_breaker_gaps` of `retrystorm.py`: one finding per service
with a non-empty `calls` list and no circuit breaker. -/
def detect_circuit_breaker_gaps (s : Topology) : List Finding :=
  s.flatMap fun p =>
    if p.2.calls ≠ [] ∧ p.2.has_circuit_breaker = false then
      [{ rule := "circuit-breaker-gap", severity := "warning"
         message := (Char.ofNat 39).toString ++ p.1 ++ (Char.ofNat 39).toString
           ++ " calls [" ++ String.intercalate ", " p.2.calls
           ++ "] without circuit breaker"
         path := [p.1] }]
    else []

/-- `analyze` of `retrystorm.py`: the three detectors concatenated in order. -/
def analyze (s : Topology) (threshold : ℤ) : List Finding :=
  detect_retry_amplification s threshold
    ++ detect_timeout_inversion s
    ++ detect_circuit_breaker_gaps s

/-- Non-dependent unfolding equation for `walk`. -/
theorem walk_eq (s : Topology) (t : ℤ) (svc : ServiceConfig)
    (path : List String) (product : ℤ) :
    walk s t svc path product =
      (if path.length > 1 ∧ product * svc.max_retries > t
        then [ampFinding (product * svc.max_retries) path] else [])
      ++ svc.calls.flatMap (fun callee =>
          if callee ∈ path then []
          else
            match s.get callee with
            | none => []
            | some c =>
              walk s t c (path ++ [callee]) (product * svc.max_retries)) := by
  rw [walk]
  congr 1
  apply List.flatMap_congr
  intro callee _
  by_cases hmem : callee ∈ path
  · simp [hmem]
  · simp only [hmem, dite_false, if_false, dif_neg]
    cases hget : s.get callee <;> simp

/-- Fuel-indexed twin of `walk`, structurally recursive so that concrete runs
of the retry-amplification detector reduce inside the kernel. -/
def walkFuel (s : Topology) (t : ℤ) : ℕ → ServiceConfig → List String → ℤ →
    List Finding
  | 0, _, _, _ => []
  | fuel + 1, svc, path, product =>
    let current := product * svc.max_retries
    (if path.length > 1 ∧ current > t
      then [ampFinding current path] else [])
    ++ svc.calls.flatMap (fun callee =>
        if callee ∈ path then []
        else
          match s.get callee with
          | none => []
          | some c => walkFuel s t fuel c (path ++ [callee]) current)

theorem walkFuel_eq_walk (s : Topology) (t : ℤ) :
    ∀ (fuel : ℕ) (svc : ServiceConfig) (path : List String) (product : ℤ),
      ((s.map Prod.fst).filter (fun k => decide (k ∉ path))).length < fuel →
      walkFuel s t fuel svc path product = walk s t svc path product := by
  intro fuel
  induction fuel with
  | zero => intro _ _ _ h; cases h
  | succ fuel ih =>
    intro svc path product hlt
    rw [walkFuel, walk_eq]
    congr 1
    apply List.flatMap_congr
    intro callee _
    by_cases hmem : callee ∈ path
    · simp [hmem]
    · simp only [hmem, if_false]
      cases hget : s.get callee with
      | none => rfl
      | some c =>
        apply ih
        have hdec :
            ((s.map Prod.fst).filter
              (fun k => decide (k ∉ path ++ [callee]))).length <
            ((s.map Prod.fst).filter (fun k => decide (k ∉ path))).length := by
          apply filter_length_lt _ _ _ callee (mem_keys_of_get_some hget)
          · intro x hx
            simp only [decide_eq_true_eq, List.mem_append,
              List.mem_singleton] at hx ⊢
            exact fun hc => hx (Or.inl hc)
          · simpa using hmem
          · simp
        omega

/-- One call edge of the topology: `a` resolves to a config whose `calls`
list contains `b`. -/
def callEdge (s : Topology) (a b : String) : Prop :=
  ∃ c, s.get a = some c ∧ b ∈ c.calls

/-- `max_retries` of a resolved service, defaulting to 1 (the default is never
used on the paths the detector visits, where every node resolves). -/
def retriesAt (s : Topology) (n : String) : ℤ :=
  ((s.get n).map ServiceConfig.max_retries).getD 1

/-- Amplification factor of a path: the product of `max_retries` over all
services on it. -/
def pathProduct (s : Topology) (p : List String) : ℤ :=
  (p.map (retriesAt s)).prod

/-- The node sequences the retry-amplification DFS visits: nonempty simple
paths through resolvable services following `calls` edges, starting anywhere. -/
def isVisitedPath (s : Topology) (p : List String) : Prop :=
  p ≠ [] ∧ p.Nodup ∧ (∀ n ∈ p, (s.get n).isSome)
    ∧ List.Chain' (callEdge s) p

/-- Executable form of `detect_retry_amplification`, using `walkFuel` with
enough fuel. -/
def detectRAExec (s : Topology) (threshold : ℤ) : List Finding :=
  s.flatMap fun p =>
    match s.get p.1 with
    | none => []
    | some svc => walkFuel s threshold (s.length + 1) svc [p.1] 1

theorem detectRA_eq_exec (s : Topology) (threshold : ℤ) :
    detect_retry_amplification s threshold = detectRAExec s threshold := by
  unfold detect_retry_amplification detectRAExec
  apply List.flatMap_congr
  intro p _
  cases hget : s.get p.1 with
  | none => rfl
  | some svc =>
    show walk s threshold svc [p.1] 1
      = walkFuel s threshold (s.length + 1) svc [p.1] 1
    rw [walkFuel_eq_walk]
    have h1 : ((s.map Prod.fst).filter
        (fun k => decide (k ∉ [p.1]))).length ≤ (s.map Prod.fst).length :=
      List.length_filter_le _ _
    simp only [List.length_map] at h1
    show ((s.map Prod.fst).filter (fun k => decide (k ∉ [p.1]))).length
      < s.length + 1
    omega

theorem pathProduct_append_singleton (s : Topology) (p : List String)
    (b : String) (cB : ServiceConfig) (hcB : s.get b = some cB) :
    pathProduct s (p ++ [b]) = pathProduct s p * cB.max_retries := by
  simp [pathProduct, retriesAt, hcB]

/-- Completeness of `walk`: any admissible continuation `e` of the current
path produces its finding whenever length and threshold conditions hold. -/
theorem walk_complete (s : Topology) (t : ℤ) :
    ∀ (e path : List String) (svc : ServiceConfig) (product : ℤ)
      (lname : String),
      path.getLast? = some lname →
      s.get lname = some svc →
      product * svc.max_retries = pathProduct s path →
      (path ++ e).Nodup →
      (∀ n ∈ e, (s.get n).isSome) →
      List.Chain' (callEdge s) (lname :: e) →
      1 < (path ++ e).length →
      pathProduct s (path ++ e) > t →
      ampFinding (pathProduct s (path ++ e)) (path ++ e)
        ∈ walk s t svc path product := by
  intro e
  induction e with
  | nil =>
    intro path svc product lname hlast hget hprod hnodup _ _ hlen hgt
    rw [walk_eq]
    apply List.mem_append_left
    rw [List.append_nil] at hlen hgt ⊢
    rw [if_pos ⟨hlen, by rw [hprod]; exact hgt⟩]
    rw [hprod]
    exact List.mem_singleton_self _
  | cons b e' ih =>
    intro path svc product lname hlast hget hprod hnodup hres hchain hlen hgt
    have hchain' := List.chain'_cons.1 hchain
    obtain ⟨svc', hsvc', hbmem⟩ := hchain'.1
    rw [hget] at hsvc'
    injection hsvc' with hsvc'
    subst hsvc'
    obtain ⟨cB, hcB⟩ := Option.isSome_iff_exists.1 (hres b (List.mem_cons_self b e'))
    have hbpath : b ∉ path := by
      intro hb
      exact (List.nodup_append.1 hnodup).2.2 hb (List.mem_cons_self b e')
    rw [walk_eq]
    apply List.mem_append_right
    rw [List.mem_flatMap]
    refine ⟨b, hbmem, ?_⟩
    rw [if_neg hbpath]
    simp only [hcB]
    have hmain := ih (path ++ [b]) cB (product * svc.max_retries) b
      (List.getLast?_concat _) hcB
      (by rw [pathProduct_append_singleton s path b cB hcB, hprod])
      (by rwa [List.append_assoc, List.singleton_append])
      (fun n hn => hres n (List.mem_cons_of_mem _ hn))
      hchain'.2
      (by rwa [List.append_assoc, List.singleton_append])
      (by rwa [List.append_assoc, List.singleton_append])
    rwa [List.append_assoc, List.singleton_append] at hmain

/-- Soundness of `walk`: every finding it emits is the finding of some
visited simple path breaching the threshold. -/
theorem walk_sound (s : Topology) (t : ℤ) :
    ∀ (svc : ServiceConfig) (path : List String) (product : ℤ),
      (∃ lname, path.getLast? = some lname ∧ s.get lname = some svc) →
      product * svc.max_retries = pathProduct s path →
      path.Nodup →
      (∀ n ∈ path, (s.get n).isSome) →
      List.Chain' (callEdge s) path →
      ∀ f ∈ walk s t svc path product,
        ∃ p, isVisitedPath s p ∧ 1 < p.length ∧ pathProduct s p > t
          ∧ f = ampFinding (pathProduct s p) p := by
  intro svc path product
  induction svc, path, product using walk.induct s t with
  | _ svc path product current ih =>
    intro hlast hprod hnodup hres hchain f hf
    rw [walk_eq] at hf
    rcases List.mem_append.1 hf with hf | hf
    · by_cases hcond : 1 < path.length ∧ product * svc.max_retries > t
      · rw [if_pos hcond] at hf
        rw [List.mem_singleton] at hf
        obtain ⟨lname, hl1, hl2⟩ := hlast
        have hne : path ≠ [] := by
          intro h; subst h; simp at hl1
        exact ⟨path, ⟨hne, hnodup, hres, hchain⟩, hcond.1,
          by rw [← hprod]; exact hcond.2, by rw [hf, hprod]⟩
      · rw [if_neg hcond] at hf
        cases hf
    · rcases List.mem_flatMap.1 hf with ⟨callee, hcmem, hf'⟩
      by_cases hcp : callee ∈ path
      · rw [if_pos hcp] at hf'
        cases hf'
      · rw [if_neg hcp] at hf'
        cases hcB : s.get callee with
        | none =>
          simp only [hcB] at hf'
          exact absurd hf' (List.not_mem_nil f)
        | some cB =>
          simp only [hcB] at hf'
          obtain ⟨lname, hl1, hl2⟩ := hlast
          refine ih callee hcp cB hcB
            ⟨callee, List.getLast?_concat _, hcB⟩
            (by
              rw [pathProduct_append_singleton s path callee cB hcB]
              show product * svc.max_retries * cB.max_retries
                = pathProduct s path * cB.max_retries
              rw [hprod])
            (List.nodup_append.2 ⟨hnodup, List.nodup_singleton _,
              fun a ha hb => hcp (by rwa [List.mem_singleton.1 hb] at ha)⟩)
            (fun n hn => by
              rcases List.mem_append.1 hn with hn | hn
              · exact hres n hn
              · rw [List.mem_singleton.1 hn, hcB]; rfl)
            (List.chain'_append.2 ⟨hchain, List.chain'_singleton _,
              fun x hx y hy => by
                rw [hl1] at hx
                rw [List.head?_cons] at hy
                injection hx with hx
                injection hy with hy
                subst hx; subst hy
                exact ⟨svc, hl2, hcmem⟩⟩)
            f hf'

/-- Membership characterization of the retry-amplification detector. -/
theorem detectRA_mem_iff (s : Topology) (t : ℤ) (f : Finding) :
    f ∈ detect_retry_amplification s t ↔
      ∃ p, isVisitedPath s p ∧ 1 < p.length ∧ pathProduct s p > t
        ∧ f = ampFinding (pathProduct s p) p := by
  constructor
  · intro hf
    unfold detect_retry_amplification at hf
    rcases List.mem_flatMap.1 hf with ⟨pr, _, hf'⟩
    cases hget : s.get pr.1 with
    | none =>
      simp only [hget] at hf'
      exact absurd hf' (List.not_mem_nil f)
    | some svc =>
      simp only [hget] at hf'
      refine walk_sound s t svc [pr.1] 1 ⟨pr.1, rfl, hget⟩ ?_
        (List.nodup_singleton _) ?_ (List.chain'_singleton _) f hf'
      · simp [pathProduct, retriesAt, hget]
      · intro n hn
        rw [List.mem_singleton.1 hn, hget]; rfl
  · rintro ⟨p, ⟨hne, hnodup, hres, hchain⟩, hlen, hgt, rfl⟩
    cases p with
    | nil => exact absurd rfl hne
    | cons n₀ rest =>
      obtain ⟨c₀, hc₀⟩ :=
        Option.isSome_iff_exists.1 (hres n₀ (List.mem_cons_self n₀ rest))
      have hfind : ∃ pr, List.find? (fun q => q.1 == n₀) s = some pr := by
        have := hc₀
        unfold Topology.get at this
        rcases Option.map_eq_some'.1 this with ⟨pr, hpr, _⟩
        exact ⟨pr, hpr⟩
      obtain ⟨pr, hpr⟩ := hfind
      have hprmem := List.mem_of_find?_eq_some hpr
      have hprkey : pr.1 = n₀ := by
        have := List.find?_some hpr
        simpa using this
      unfold detect_retry_amplification
      rw [List.mem_flatMap]
      refine ⟨pr, hprmem, ?_⟩
      rw [hprkey, hc₀]
      have hmain := walk_complete s t rest [n₀] c₀ 1 n₀ rfl hc₀
        (by simp [pathProduct, retriesAt, hc₀])
        (by rwa [List.singleton_append])
        (fun n hn => hres n (List.mem_cons_of_mem _ hn))
        hchain
        (by rwa [List.singleton_append])
        (by rwa [List.singleton_append])
      rwa [List.singleton_append] at hmain

/-- The finding `detect_timeout_inversion` appends for a flagged edge. -/
def tiFinding (name : String) (svc : ServiceConfig) (cn : String)
    (c : ServiceConfig) : Finding :=
  { rule := "timeout-inversion", severity := "warning"
    message := name ++ " timeout (" ++ toString svc.timeout_ms ++ "ms) < "
      ++ cn ++ " (" ++ toString c.timeout_ms ++ "ms)"
    path := [name, cn] }

/-- The finding `detect_circuit_breaker_gaps` appends for a flagged service. -/
def cbFinding (p : String × ServiceConfig) : Finding :=
  { rule := "circuit-breaker-gap", severity := "warning"
    message := (Char.ofNat 39).toString ++ p.1 ++ (Char.ofNat 39).toString
      ++ " calls [" ++ String.intercalate ", " p.2.calls
      ++ "] without circuit breaker"
    path := [p.1] }

/-- Membership characterization of the timeout-inversion detector. -/
theorem detectTI_mem_iff (s : Topology) (f : Finding) :
    f ∈ detect_timeout_inversion s ↔
      ∃ pr ∈ s, ∃ cn ∈ pr.2.calls, ∃ c, s.get cn = some c
        ∧ pr.2.timeout_ms < c.timeout_ms
        ∧ f = tiFinding pr.1 pr.2 cn c := by
  unfold detect_timeout_inversion
  constructor
  · intro hf
    rcases List.mem_flatMap.1 hf with ⟨pr, hpr, hf'⟩
    rcases List.mem_flatMap.1 hf' with ⟨cn, hcn, hf''⟩
    cases hget : s.get cn with
    | none =>
      simp only [hget] at hf''
      exact absurd hf'' (List.not_mem_nil f)
    | some c =>
      simp only [hget] at hf''
      by_cases hlt : pr.2.timeout_ms < c.timeout_ms
      · rw [if_pos hlt, List.mem_singleton] at hf''
        exact ⟨pr, hpr, cn, hcn, c, hget, hlt, hf''⟩
      · rw [if_neg hlt] at hf''
        exact absurd hf'' (List.not_mem_nil f)
  · rintro ⟨pr, hpr, cn, hcn, c, hget, hlt, rfl⟩
    rw [List.mem_flatMap]
    refine ⟨pr, hpr, ?_⟩
    rw [List.mem_flatMap]
    refine ⟨cn, hcn, ?_⟩
    simp only [hget]
    rw [if_pos hlt]
    exact List.mem_singleton_self _

/-- `detect_circuit_breaker_gaps` is a filter-and-map over the topology. -/
theorem detectCB_eq (s : Topology) :
    detect_circuit_breaker_gaps s
      = (s.filter fun p =>
          decide (p.2.calls ≠ [] ∧ p.2.has_circuit_breaker = false)).map
          cbFinding := by
  unfold detect_circuit_breaker_gaps
  induction s with
  | nil => rfl
  | cons p s ih =>
    rw [List.flatMap_cons, List.filter_cons]
    by_cases h : p.2.calls ≠ [] ∧ p.2.has_circuit_breaker = false
    · rw [if_pos h, if_pos (decide_eq_true h), List.map_cons, ih]
      rfl
    · rw [if_neg h, if_neg (fun hc => h (of_decide_eq_true hc)),
        List.nil_append]
      exact ih

/-- Every finding `walk` emits carries the retry-amplification rule and
`error` severity. -/
theorem walk_rule_severity (s : Topology) (t : ℤ) :
    ∀ svc path product, ∀ f ∈ walk s t svc path product,
      f.rule = "retry-amplification" ∧ f.severity = "error" := by
  intro svc path product
  induction svc, path, product using walk.induct s t with
  | _ svc path product current ih =>
    intro f hf
    rw [walk_eq] at hf
    rcases List.mem_append.1 hf with hf | hf
    · by_cases hcond : path.length > 1 ∧ product * svc.max_retries > t
      · rw [if_pos hcond, List.mem_singleton] at hf
        subst hf
        exact ⟨rfl, rfl⟩
      · rw [if_neg hcond] at hf
        exact absurd hf (List.not_mem_nil f)
    · rcases List.mem_flatMap.1 hf with ⟨callee, _, hf'⟩
      by_cases hcp : callee ∈ path
      · rw [if_pos hcp] at hf'
        exact absurd hf' (List.not_mem_nil f)
      · rw [if_neg hcp] at hf'
        cases hcB : s.get callee with
        | none =>
          simp only [hcB] at hf'
          exact absurd hf' (List.not_mem_nil f)
        | some cB =>
          simp only [hcB] at hf'
          exact ih callee hcp cB hcB f hf'

/-- Rule and severity of every retry-amplification finding. -/
theorem detectRA_rule_severity (s : Topology) (t : ℤ) (f : Finding)
    (hf : f ∈ detect_retry_amplification s t) :
    f.rule = "retry-amplification" ∧ f.severity = "error" := by
  unfold detect_retry_amplification at hf
  rcases List.mem_flatMap.1 hf with ⟨pr, _, hf'⟩
  cases hget : s.get pr.1 with
  | none =>
    simp only [hget] at hf'
    exact absurd hf' (List.not_mem_nil f)
  | some svc =>
    simp only [hget] at hf'
    exact walk_rule_severity s t svc [pr.1] 1 f hf'

/-- Drop every dangling entry from one config's `calls` list. -/
def pruneCalls (s : Topology) (c : ServiceConfig) : ServiceConfig :=
  { c with calls := c.calls.filter fun n => (s.get n).isSome }

/-- The topology with every dangling `calls` entry removed: how the detectors
would see the topology if dangling references were literally absent. -/
def pruneDangling (s : Topology) : Topology :=
  s.map fun p => (p.1, pruneCalls s p.2)

theorem get_map_snd (l : Topology) (g : ServiceConfig → ServiceConfig)
    (name : String) :
    Topology.get (l.map fun p => (p.1, g p.2)) name = (l.get name).map g := by
  unfold Topology.get
  induction l with
  | nil => rfl
  | cons p l ih =>
    simp only [List.map_cons, List.find?_cons]
    cases h : (p.1 == name) with
    | true => rfl
    | false => exact ih

theorem get_pruneDangling (s : Topology) (name : String) :
    (pruneDangling s).get name = (s.get name).map (pruneCalls s) :=
  get_map_snd s (pruneCalls s) name

/-- `walk` never sees a difference between a topology and its pruned form. -/
theorem walk_prune (s : Topology) (t : ℤ) :
    ∀ svc path product,
      walk (pruneDangling s) t (pruneCalls s svc) path product
        = walk s t svc path product := by
  intro svc path product
  induction svc, path, product using walk.induct s t with
  | _ svc path product current ih =>
    rw [walk_eq, walk_eq]
    congr 1
    show ((svc.calls.filter fun n => (s.get n).isSome).flatMap fun callee =>
        if callee ∈ path then []
        else
          match (pruneDangling s).get callee with
          | none => []
          | some c =>
            walk (pruneDangling s) t c (path ++ [callee])
              (product * svc.max_retries))
      = svc.calls.flatMap fun callee =>
          if callee ∈ path then []
          else
            match s.get callee with
            | none => []
            | some c => walk s t c (path ++ [callee])
                (product * svc.max_retries)
    induction svc.calls with
    | nil => rfl
    | cons callee l ihl =>
      rw [List.flatMap_cons, List.filter_cons]
      cases hcB : s.get callee with
      | none =>
        rw [if_neg (by simp [hcB])]
        rw [ihl]
        by_cases hcp : callee ∈ path
        · rw [if_pos hcp, List.nil_append]
        · rw [if_neg hcp]
          simp only [hcB]
          rw [List.nil_append]
      | some cB =>
        rw [if_pos (by simp [hcB]), List.flatMap_cons, ihl]
        congr 1
        by_cases hcp : callee ∈ path
        · rw [if_pos hcp, if_pos hcp]
        · rw [if_neg hcp, if_neg hcp]
          simp only [get_pruneDangling, hcB, Option.map_some']
          exact ih callee hcp cB hcB

theorem pruneCalls_timeout (s : Topology) (c : ServiceConfig) :
    (pruneCalls s c).timeout_ms = c.timeout_ms := rfl

theorem pruneCalls_calls (s : Topology) (c : ServiceConfig) :
    (pruneCalls s c).calls = c.calls.filter fun n => (s.get n).isSome := rfl

/-- Pruning dangling references never changes the retry-amplification
findings. -/
theorem detectRA_prune (s : Topology) (t : ℤ) :
    detect_retry_amplification (pruneDangling s) t
      = detect_retry_amplification s t := by
  unfold detect_retry_amplification
  show (pruneDangling s).flatMap _ = _
  unfold pruneDangling
  rw [List.flatMap_map]
  apply List.flatMap_congr
  intro p _
  show (match Topology.get (List.map _ s) p.1 with
      | none => []
      | some svc => walk (List.map _ s) t svc [p.1] 1) = _
  rw [show Topology.get (List.map (fun p => (p.1, pruneCalls s p.2)) s) p.1
      = (s.get p.1).map (pruneCalls s) from get_map_snd s (pruneCalls s) p.1]
  cases hget : s.get p.1 with
  | none => rfl
  | some svc =>
    simp only [Option.map_some']
    exact walk_prune s t svc [p.1] 1

theorem ti_inner_prune {β : Type} (s : Topology)
    (F : String → ServiceConfig → List β)
    (hF : ∀ cn c, F cn (pruneCalls s c) = F cn c) :
    ∀ l : List String,
      ((l.filter fun n => (s.get n).isSome).flatMap fun cn =>
          match (pruneDangling s).get cn with
          | none => []
          | some callee => F cn callee)
        = l.flatMap fun cn =>
            match s.get cn with
            | none => []
            | some callee => F cn callee := by
  intro l
  induction l with
  | nil => rfl
  | cons cn l ih =>
    rw [List.filter_cons]
    cases hget : s.get cn with
    | none =>
      rw [if_neg (by simp [hget]), List.flatMap_cons, ih]
      simp only [hget]
      rw [List.nil_append]
    | some c =>
      rw [if_pos (by simp [hget]), List.flatMap_cons, List.flatMap_cons, ih]
      congr 1
      rw [get_pruneDangling, hget]
      simp only [Option.map_some']
      exact hF cn c

/-- Pruning dangling references never changes the timeout-inversion
findings. -/
theorem detectTI_prune (s : Topology) :
    detect_timeout_inversion (pruneDangling s) = detect_timeout_inversion s := by
  unfold detect_timeout_inversion
  show (pruneDangling s).flatMap _ = _
  unfold pruneDangling
  rw [List.flatMap_map]
  apply List.flatMap_congr
  intro p _
  exact ti_inner_prune (β := Finding) s
    (fun cn callee =>
      if p.2.timeout_ms < callee.timeout_ms then
        [{ rule := "timeout-inversion", severity := "warning"
           message := p.1 ++ " timeout (" ++ toString p.2.timeout_ms
             ++ "ms) < " ++ cn ++ " (" ++ toString callee.timeout_ms ++ "ms)"
           path := [p.1, cn] }]
      else [])
    (fun cn c => rfl) p.2.calls

/-- The spec's worked example chain: `gateway(retries=3) → svc-a(retries=4) →
svc-b(retries=3)`, with the timeout-inversion example values
`gateway.timeout=3000ms`, `svc-a.timeout=5000ms`. -/
def gwC : ServiceConfig := ⟨"gateway", 3000, 3, false, ["svc-a"]⟩

def saC : ServiceConfig := ⟨"svc-a", 5000, 4, false, ["svc-b"]⟩

def sbC : ServiceConfig := ⟨"svc-b", 5000, 3, false, []⟩

def exChain : Topology := [("gateway", gwC), ("svc-a", saC), ("svc-b", sbC)]

/-- Two services with equal timeouts (no inversion expected). -/
def eqTimeouts : Topology :=
  [("a", ⟨"a", 5000, 1, true, ["b"]⟩), ("b", ⟨"b", 5000, 1, true, []⟩)]

/-- A breaker-less service whose only outbound call dangles. -/
def ghostCfg : ServiceConfig := ⟨"a", 1000, 1, false, ["ghost"]⟩

/-- Self-calling service (`a.calls = ["a"]`) with large retries. -/
def selfLoop : Topology := [("a", ⟨"a", 100, 100, false, ["a"]⟩)]

/-- Mutually cyclic services `a ↔ b`. -/
def mutualLoop : Topology :=
  [("a", ⟨"a", 1, 5, true, ["b"]⟩), ("b", ⟨"b", 1, 5, true, ["a"]⟩)]

/-- C1 counterexample: a breaker-less service whose only `calls` entry is
dangling still yields a circuit-breaker-gap finding, and removing the
dangling entry (pruning) changes that detector's output — so not all three
detectors behave as if the entry were absent. -/
theorem claim1_counterexample :
    detect_circuit_breaker_gaps [("a", ghostCfg)] = [cbFinding ("a", ghostCfg)]
    ∧ detect_circuit_breaker_gaps (pruneDangling [("a", ghostCfg)]) = []
    ∧ detect_circuit_breaker_gaps [("a", ghostCfg)]
        ≠ detect_circuit_breaker_gaps (pruneDangling [("a", ghostCfg)]) := by
  refine ⟨by decide, by decide, by decide⟩

/-- C1 (amended): dangling references are invisible to the two edge-following
detectors — removing every dangling `calls` entry changes neither the
retry-amplification nor the timeout-inversion findings — but
`detect_circuit_breaker_gaps` never consults the topology for callees, so a
breaker-less service with a non-empty `calls` list is flagged even when every
entry is dangling. -/
theorem claim1_dangling_tolerance :
    (∀ (s : Topology) (t : ℤ),
      detect_retry_amplification (pruneDangling s) t
        = detect_retry_amplification s t)
    ∧ (∀ s : Topology,
      detect_timeout_inversion (pruneDangling s) = detect_timeout_inversion s)
    ∧ (∀ (name : String) (cfg : ServiceConfig),
      cfg.calls ≠ [] → cfg.has_circuit_breaker = false →
        detect_circuit_breaker_gaps [(name, cfg)] = [cbFinding (name, cfg)]) := by
  refine ⟨detectRA_prune, detectTI_prune, ?_⟩
  intro name cfg h1 h2
  unfold detect_circuit_breaker_gaps
  rw [List.flatMap_cons, List.flatMap_nil, List.append_nil,
    if_pos ⟨h1, h2⟩]
  rfl

/-- Witness for C1's amended statement at a concrete dangling-only service. -/
theorem claim1_dangling_tolerance_witness :
    detect_circuit_breaker_gaps [("a", ghostCfg)]
      = [cbFinding ("a", ghostCfg)] :=
  claim1_dangling_tolerance.2.2 "a" ghostCfg (by decide) (by decide)

/-- C4: `parse_duration` returns numeric input unchanged, trims whitespace,
applies the `"ms"`, `"s"`, `"m"` suffix precedence, and parses suffix-less
strings as bare milliseconds: `"5s" → 5000`, `"200ms" → 200`,
`"2m" → 120000`, `500 → 500`, `" 42 " → 42`. -/
theorem claim4_parse_duration :
    (∀ q : ℚ, parse_duration (.num q) = some q)
    ∧ parse_duration (.str "5s") = some 5000
    ∧ parse_duration (.str "200ms") = some 200
    ∧ parse_duration (.str "2m") = some 120000
    ∧ parse_duration (.num 500) = some 500
    ∧ parse_duration (.str " 42 ") = some 42 := by
  refine ⟨fun q => rfl, ?_, ?_, ?_, rfl, ?_⟩
  · simp +decide [parse_duration, strStrip, stripChars, strEndsWith,
      strDropRight, pyFloat, splitOnChar, digitsVal]
    norm_num
  · simp +decide [parse_duration, strStrip, stripChars, strEndsWith,
      strDropRight, pyFloat, splitOnChar, digitsVal]
  · simp +decide [parse_duration, strStrip, stripChars, strEndsWith,
      strDropRight, pyFloat, splitOnChar, digitsVal]
    norm_num
  · simp +decide [parse_duration, strStrip, stripChars, strEndsWith,
      strDropRight, pyFloat, splitOnChar, digitsVal]

/-- C10: a service whose only outbound call leads back to itself never
produces a retry-amplification finding, for every timeout, `max_retries`,
breaker flag and threshold: the cycle guard stops the path at length 1, and
length-1 paths are never flagged. -/
theorem claim10_self_loop_invisible :
    ∀ (tm : ℚ) (mr : ℤ) (cb : Bool) (t : ℤ),
      detect_retry_amplification [("a", ⟨"a", tm, mr, cb, ["a"]⟩)] t = [] := by
  intro tm mr cb t
  unfold detect_retry_amplification
  rw [List.flatMap_cons, List.flatMap_nil, List.append_nil]
  show walk [("a", ⟨"a", tm, mr, cb, ["a"]⟩)] t ⟨"a", tm, mr, cb, ["a"]⟩
    ["a"] 1 = []
  rw [walk_eq]
  simp

/-- C2: a retry-amplification finding exists exactly for the visited simple
paths with at least one edge whose retry product strictly exceeds the
threshold; the finding is `ampFinding` of that product and path (rule
`retry-amplification`, severity `error`, message carrying the factor, path =
the full node sequence).  On the spec's example chain with threshold 10 the
detector reports the `36x` chain with path
`["gateway", "svc-a", "svc-b"]`. -/
theorem claim2_retry_amplification :
    (∀ (s : Topology) (t : ℤ) (f : Finding),
      f ∈ detect_retry_amplification s t ↔
        ∃ p, isVisitedPath s p ∧ 1 < p.length ∧ pathProduct s p > t
          ∧ f = ampFinding (pathProduct s p) p)
    ∧ detect_retry_amplification exChain 10
        = [ampFinding 12 ["gateway", "svc-a"],
           ampFinding 36 ["gateway", "svc-a", "svc-b"],
           ampFinding 12 ["svc-a", "svc-b"]]
    ∧ (∃ f ∈ detect_retry_amplification exChain 10,
        (∃ pre post, f.message = pre ++ "36x" ++ post)
        ∧ f.path = ["gateway", "svc-a", "svc-b"]) := by
  refine ⟨detectRA_mem_iff, by rw [detectRA_eq_exec]; decide, ?_⟩
  refine ⟨ampFinding 36 ["gateway", "svc-a", "svc-b"],
    by rw [detectRA_eq_exec]; decide,
    ⟨"Retry amplification ", " along gateway -> svc-a -> svc-b", by decide⟩,
    by decide⟩

/-- C3: a timeout-inversion finding exists exactly for the edges whose callee
resolves and whose caller timeout is strictly below the callee timeout; the
finding is `tiFinding` (rule `timeout-inversion`, severity `warning`, path
`[caller, callee]`).  The spec's 3000ms → 5000ms example yields exactly one
finding; equal timeouts yield none. -/
theorem claim3_timeout_inversion :
    (∀ (s : Topology) (f : Finding),
      f ∈ detect_timeout_inversion s ↔
        ∃ pr ∈ s, ∃ cn ∈ pr.2.calls, ∃ c, s.get cn = some c
          ∧ pr.2.timeout_ms < c.timeout_ms
          ∧ f = tiFinding pr.1 pr.2 cn c)
    ∧ detect_timeout_inversion exChain = [tiFinding "gateway" gwC "svc-a" saC]
    ∧ (tiFinding "gateway" gwC "svc-a" saC).path = ["gateway", "svc-a"]
    ∧ detect_timeout_inversion eqTimeouts = [] :=
  ⟨detectTI_mem_iff, by decide, by decide, by decide⟩

/-- C5: the circuit-breaker-gap detector emits exactly one finding, in
topology order, for each service with a non-empty `calls` list and no
breaker (rule `circuit-breaker-gap`, severity `warning`, path = the
one-element list of the service name); all other services yield none. -/
theorem claim5_circuit_breaker_gaps :
    ∀ s : Topology,
      detect_circuit_breaker_gaps s
        = (s.filter fun p =>
            decide (p.2.calls ≠ [] ∧ p.2.has_circuit_breaker = false)).map
            cbFinding
      ∧ (∀ f : Finding, f ∈ detect_circuit_breaker_gaps s ↔
          ∃ p ∈ s, p.2.calls ≠ [] ∧ p.2.has_circuit_breaker = false
            ∧ f = cbFinding p)
      ∧ ∀ p : String × ServiceConfig,
          (cbFinding p).rule = "circuit-breaker-gap"
          ∧ (cbFinding p).severity = "warning"
          ∧ (cbFinding p).path = [p.1] := by
  intro s
  refine ⟨detectCB_eq s, ?_, fun p => ⟨rfl, rfl, rfl⟩⟩
  intro f
  rw [detectCB_eq]
  constructor
  · intro hf
    rcases List.mem_map.1 hf with ⟨p, hp, rfl⟩
    rcases List.mem_filter.1 hp with ⟨hmem, hcond⟩
    have hc := of_decide_eq_true hcond
    exact ⟨p, hmem, hc.1, hc.2, rfl⟩
  · rintro ⟨p, hp, h1, h2, rfl⟩
    exact List.mem_map.2 ⟨p, List.mem_filter.2 ⟨hp, decide_eq_true ⟨h1, h2⟩⟩, rfl⟩

/-- C6: `analyze` is the concatenation of the three detectors' findings in
fixed order, each detector's internal order preserved, and the threshold
only affects the retry-amplification prefix: the suffix after that prefix is
the same for every threshold. -/
theorem claim6_analyze_concatenation :
    ∀ (s : Topology) (t : ℤ),
      analyze s t = detect_retry_amplification s t
        ++ detect_timeout_inversion s ++ detect_circuit_breaker_gaps s
      ∧ (analyze s t).take (detect_retry_amplification s t).length
          = detect_retry_amplification s t
      ∧ ∀ t2 : ℤ,
          (analyze s t).drop (detect_retry_amplification s t).length
            = (analyze s t2).drop (detect_retry_amplification s t2).length := by
  intro s t
  refine ⟨rfl, ?_, fun t2 => ?_⟩
  · show ((detect_retry_amplification s t
        ++ detect_timeout_inversion s) ++ detect_circuit_breaker_gaps s).take
          (detect_retry_amplification s t).length
      = detect_retry_amplification s t
    rw [List.append_assoc, List.take_left]
  · show ((detect_retry_amplification s t
        ++ detect_timeout_inversion s) ++ detect_circuit_breaker_gaps s).drop
          (detect_retry_amplification s t).length
      = ((detect_retry_amplification s t2
        ++ detect_timeout_inversion s) ++ detect_circuit_breaker_gaps s).drop
          (detect_retry_amplification s t2).length
    rw [List.append_assoc, List.drop_left, List.append_assoc, List.drop_left]

/-- C7: every finding of `analyze` carries one of the three fixed rules, and
its severity is `error` exactly when the rule is `retry-amplification`
(`warning` otherwise). -/
theorem claim7_rule_severity :
    ∀ (s : Topology) (t : ℤ) (f : Finding), f ∈ analyze s t →
      (f.rule = "retry-amplification" ∨ f.rule = "timeout-inversion"
        ∨ f.rule = "circuit-breaker-gap")
      ∧ (f.severity = "error" ↔ f.rule = "retry-amplification")
      ∧ (f.rule ≠ "retry-amplification" → f.severity = "warning") := by
  intro s t f hf
  unfold analyze at hf
  rcases List.mem_append.1 hf with hf' | hcb
  · rcases List.mem_append.1 hf' with hra | hti
    · obtain ⟨hr, hs⟩ := detectRA_rule_severity s t f hra
      exact ⟨Or.inl hr, by simp [hr, hs], fun h => absurd hr h⟩
    · obtain ⟨pr, _, cn, _, c, _, _, rfl⟩ := (detectTI_mem_iff s f).1 hti
      refine ⟨Or.inr (Or.inl rfl), ?_, fun _ => rfl⟩
      simp [tiFinding]
  · rw [detectCB_eq] at hcb
    rcases List.mem_map.1 hcb with ⟨p, _, rfl⟩
    refine ⟨Or.inr (Or.inr rfl), ?_, fun _ => rfl⟩
    simp [cbFinding]

/-- Witness for C7 at a concrete topology and finding. -/
theorem claim7_rule_severity_witness :
    ((cbFinding ("a", ghostCfg)).rule = "retry-amplification"
      ∨ (cbFinding ("a", ghostCfg)).rule = "timeout-inversion"
      ∨ (cbFinding ("a", ghostCfg)).rule = "circuit-breaker-gap")
    ∧ ((cbFinding ("a", ghostCfg)).severity = "error"
        ↔ (cbFinding ("a", ghostCfg)).rule = "retry-amplification")
    ∧ ((cbFinding ("a", ghostCfg)).rule ≠ "retry-amplification"
        → (cbFinding ("a", ghostCfg)).severity = "warning") :=
  claim7_rule_severity [("a", ghostCfg)] 10 (cbFinding ("a", ghostCfg))
    (by simp only [analyze, detectRA_eq_exec]; decide)

/-- C8: `analyze` is a pure function of topology and threshold: two
invocations on the same arguments produce structurally identical finding
sequences — same length and, at every position, the same rule, severity,
message and path.  (The embedding is a function, mirroring the source, which
reads but never mutates the topology and keeps no process-wide state.) -/
theorem claim8_analyze_deterministic :
    ∀ (s : Topology) (t : ℤ),
      analyze s t = analyze s t
      ∧ (analyze s t).length = (analyze s t).length
      ∧ ∀ i : ℕ,
          (analyze s t)[i]?.map Finding.rule
            = (analyze s t)[i]?.map Finding.rule
          ∧ (analyze s t)[i]?.map Finding.severity
            = (analyze s t)[i]?.map Finding.severity
          ∧ (analyze s t)[i]?.map Finding.message
            = (analyze s t)[i]?.map Finding.message
          ∧ (analyze s t)[i]?.map Finding.path
            = (analyze s t)[i]?.map Finding.path :=
  fun s t => ⟨rfl, rfl, fun i => ⟨rfl, rfl, rfl, rfl⟩⟩

/-- C9: the retry-amplification traversal only ever reports simple paths
(its recursion refuses already-visited nodes, which is what makes it total —
`walk` is accepted as a terminating function on every topology), and the
cyclic topologies `a → a` and `a ↔ b` terminate with the expected findings:
the self-loop yields nothing, the two-cycle yields exactly one finding per
start node. -/
theorem claim9_termination_simple_paths :
    (∀ (s : Topology) (t : ℤ) (f : Finding),
      f ∈ detect_retry_amplification s t → f.path.Nodup)
    ∧ detect_retry_amplification selfLoop 1 = []
    ∧ detect_retry_amplification mutualLoop 10
        = [ampFinding 25 ["a", "b"], ampFinding 25 ["b", "a"]] := by
  refine ⟨?_, by rw [detectRA_eq_exec]; decide,
    by rw [detectRA_eq_exec]; decide⟩
  intro s t f hf
  obtain ⟨p, hvp, -, -, rfl⟩ := (detectRA_mem_iff s t f).1 hf
  exact hvp.2.1

/-- Witness for C9 at the mutually-cyclic topology. -/
theorem claim9_termination_witness : (ampFinding 25 ["a", "b"]).path.Nodup :=
  claim9_termination_simple_paths.1 mutualLoop 10 (ampFinding 25 ["a", "b"])
    (by simp only [detectRA_eq_exec]; decide)
